import Mathlib

/-!
# Verification of the Gitlab-analyze commit-statistics pipeline

Shallow embedding of the Go sources of `doufum/Gitlab-analyze`:

* the data model (`CommitStats`, `Commit`, `CommitIdentifier`,
  `ProjectStats`, `UserStats`) from the `gitlab` package;
* the dedup-and-attribution reducer loop of `GetProjectCommitStats`
  (the `for work := range resultChan` body) as a pure step function
  `processWork` over an explicit `ReducerState`;
* the commit lister, retry wrapper, per-commit worker and the
  fatal-error handling of `GetProjectCommitStats`, modelled
  sequentially with network outcomes as explicit parameters;
* `MergeProjectStats` and the project loop of the `analyze`
  subcommand (`cmd/main.go`).

Go maps are modelled as association lists (`List (String × α)`) with
`lookupKey`/`setKey`; Go map read-of-missing-key-then-store is
`(lookupKey m k).getD default` followed by `setKey`.  Go `int` is
modelled by `Int` (the counters in question stay far from the 64-bit
range, so wraparound is not modelled).  The concurrent worker pool
delivers results in a nondeterministic order; the reducer theorems
therefore quantify over an arbitrary arrival sequence of work items.
-/

/-- `CommitStats` from the `gitlab` package: additions, deletions and
the upstream-reported `total` (not recomputed from the other two). -/
structure CommitStats where
  Additions : Int
  Deletions : Int
  Total : Int
deriving DecidableEq, Repr

/-- `Commit` from the `gitlab` package (the fields the pipeline uses). -/
structure Commit where
  ID : String
  AuthorName : String
  Stats : CommitStats
  ParentIDs : List String
  Message : String
deriving DecidableEq, Repr

/-- `CommitIdentifier`: the deduplication key derived from message,
author name and diff stats. -/
structure CommitIdentifier where
  Message : String
  AuthorName : String
  Stats : CommitStats
deriving DecidableEq, Repr

/-- `ProjectStats`: per-author running totals within one project.
There is no `Total` field at project granularity. -/
structure ProjectStats where
  Additions : Int
  Deletions : Int
  Changes : Int
deriving DecidableEq, Repr

/-- `UserStats`: per-author totals plus the per-project map. -/
structure UserStats where
  Additions : Int
  Deletions : Int
  Changes : Int
  Total : Int
  Projects : List (String × ProjectStats)
deriving DecidableEq, Repr

/-- `commitWork`: the item sent over `resultChan` by a stats worker.
`err = true` models `err != nil` (the `message` field of the Go struct
is never populated and is kept only for shape fidelity). -/
structure commitWork where
  message : String
  commit : Commit
  stats : CommitStats
  err : Bool
deriving DecidableEq, Repr

/-- Association-list lookup, modelling Go map indexing `m[k]`. -/
def lookupKey {α : Type} : List (String × α) → String → Option α
  | [], _ => none
  | (k, v) :: rest, key => if k = key then some v else lookupKey rest key

/-- Association-list store, modelling Go map assignment `m[k] = v`. -/
def setKey {α : Type} : List (String × α) → String → α → List (String × α)
  | [], key, v => [(key, v)]
  | (k, w) :: rest, key, v =>
      if k = key then (key, v) :: rest else (k, w) :: setKey rest key v

/-- The zero `ProjectStats`, i.e. Go's `ProjectStats{}`. -/
def zeroProjectStats : ProjectStats := ⟨0, 0, 0⟩

/-- The `UserStats` created on first sight of an author:
`UserStats{Projects: make(map)}`. -/
def emptyUserStats : UserStats := ⟨0, 0, 0, 0, []⟩

/-- The state threaded through the result loop of
`GetProjectCommitStats`: the accumulating author map, the processed
commit-ID set and the seen-signature set. -/
structure ReducerState where
  stats : List (String × UserStats)
  processedCommits : List String
  commitSignatures : List CommitIdentifier
deriving DecidableEq, Repr

/-- The state at entry of the result loop: all three maps empty. -/
def initialReducerState : ReducerState := ⟨[], [], []⟩

/-- The dedup signature the reducer computes for a work item. -/
def sigOf (w : commitWork) : CommitIdentifier :=
  ⟨w.commit.Message, w.commit.AuthorName, w.stats⟩

/-- The accumulation block of the result loop (part_002 lines
317-341): read (or materialise) the author's `UserStats`, add the
diff's additions/deletions and the upstream `Total` into the top-level
fields, add `additions+deletions` into `Total`, and do the same —
without a `Total` field — for the author's entry of the current
project. -/
def applyStats (projectID : String) (m : List (String × UserStats))
    (w : commitWork) : List (String × UserStats) :=
  let base := (lookupKey m w.commit.AuthorName).getD emptyUserStats
  let u : UserStats :=
    { base with
        Additions := base.Additions + w.stats.Additions
        Deletions := base.Deletions + w.stats.Deletions
        Changes := base.Changes + w.stats.Total
        Total := base.Total + w.stats.Additions + w.stats.Deletions }
  let p := (lookupKey u.Projects projectID).getD zeroProjectStats
  let p2 : ProjectStats :=
    { Additions := p.Additions + w.stats.Additions
      Deletions := p.Deletions + w.stats.Deletions
      Changes := p.Changes + w.stats.Total }
  let u2 : UserStats := { u with Projects := setKey u.Projects projectID p2 }
  setKey m w.commit.AuthorName u2

/-- One iteration of the `for work := range resultChan` loop of
`GetProjectCommitStats` (part_002 lines 275-342), mirroring the Go
control flow exactly: skip on error; drop on already-seen signature,
otherwise record the signature immediately; then drop a merge commit
with an already-processed parent; then drop an already-processed ID;
otherwise record the ID and accumulate the diff into the author's
top-level totals and per-project entry. -/
def processWork (projectID : String) (st : ReducerState) (w : commitWork) :
    ReducerState :=
  if w.err then st
  else
    let commit := w.commit
    let identifier := sigOf w
    if identifier ∈ st.commitSignatures then st
    else
      let st1 : ReducerState :=
        { st with commitSignatures := identifier :: st.commitSignatures }
      if commit.ParentIDs.length > 1 ∧
          ∃ p ∈ commit.ParentIDs, p ∈ st1.processedCommits then st1
      else if commit.ID ∈ st1.processedCommits then st1
      else
        let st2 : ReducerState :=
          { st1 with processedCommits := commit.ID :: st1.processedCommits }
        { st2 with stats := applyStats projectID st2.stats w }

/-- Run the reducer loop over a sequence of work items from a given
state (the arrival order of the concurrent workers is the list order). -/
def runReducer (projectID : String) (st : ReducerState)
    (works : List commitWork) : ReducerState :=
  works.foldl (processWork projectID) st

/-- View of an author's top-level totals `(Additions, Deletions,
Changes, Total)`, reading absent authors as zero the way the Go code
materialises them on first touch. -/
def topViewD (m : List (String × UserStats)) (a : String) :
    Int × Int × Int × Int :=
  let u := (lookupKey m a).getD emptyUserStats
  (u.Additions, u.Deletions, u.Changes, u.Total)

/-- View of an author's per-project entry `(Additions, Deletions,
Changes)`, reading absent entries as zero. -/
def projViewD (m : List (String × UserStats)) (a pid : String) :
    Int × Int × Int :=
  let u := (lookupKey m a).getD emptyUserStats
  let p := (lookupKey u.Projects pid).getD zeroProjectStats
  (p.Additions, p.Deletions, p.Changes)

/-- Option-level view of an author's top-level totals: `none` when the
author has no entry in the map. -/
def userTopView (m : List (String × UserStats)) (a : String) :
    Option (Int × Int × Int × Int) :=
  (lookupKey m a).map fun u => (u.Additions, u.Deletions, u.Changes, u.Total)

/-- Option-level view of an author's per-project entry: `none` when
either the author or that project entry is absent. -/
def projView (m : List (String × UserStats)) (a pid : String) :
    Option (Int × Int × Int) :=
  (lookupKey m a).bind fun u =>
    (lookupKey u.Projects pid).map fun p => (p.Additions, p.Deletions, p.Changes)

/-! ## Retry wrapper, lister and worker

The network is abstracted as in §6 of the design: an attempt function
`Nat → Except String β` gives the outcome of the k-th try of one
request, and page/detail bodies decode fallibly. -/

/-- The retry loop used by both the lister and the workers
(`for retry := 0; retry < maxRetries; retry++ { ... }`): first
success among the remaining attempts, otherwise the last attempt's
error.  `i` is the index of the next attempt, the second argument the
number of attempts left (5 at every call site). -/
def retryCall {β : Type} (attempt : Nat → Except String β) :
    Nat → Nat → Except String β
  | i, 0 => attempt i
  | i, 1 => attempt i
  | i, n + 2 =>
      match attempt i with
      | Except.ok v => Except.ok v
      | Except.error _ => retryCall attempt (i + 1) (n + 1)

/-- One page request of the commit lister: 5 retried attempts for the
body, then a single JSON decode of the successful body.  Both an
exhausted retry and a decode failure yield the page's fatal error. -/
def fetchPage {β : Type} (attempt : Nat → Except String β)
    (decode : β → Except String (List Commit)) : Except String (List Commit) :=
  match retryCall attempt 0 5 with
  | Except.error e => Except.error e
  | Except.ok body => decode body

/-- The pagination loop of the lister goroutine: consume page results
in order, stopping at the first empty page (normal termination, the
remote history is finite) or at the first fatal page error, which is
recorded for the `errChan` check.  Commits of pages read before the
failure were already queued and are returned as well. -/
def listCommits : List (Except String (List Commit)) →
    List Commit × Option String
  | [] => ([], none)
  | Except.error e :: _ => ([], some e)
  | Except.ok cs :: rest =>
      if cs.isEmpty then ([], none)
      else
        let r := listCommits rest
        (cs ++ r.1, r.2)

/-- A stats worker's output for one commit: on a successful detail
fetch the work item carries the decoded stats, otherwise it carries
the error flag (stats left at their zero value as in Go). -/
def enrichCommit (fetchDetail : Commit → Option CommitStats) (c : Commit) :
    commitWork :=
  match fetchDetail c with
  | some s => ⟨"", c, s, false⟩
  | none => ⟨"", c, ⟨0, 0, 0⟩, true⟩

/-- Sequential model of `GetProjectCommitStats` (part_002 lines
120-353): list all pages, enrich every queued commit, fold the reducer
over the results in arrival order, then perform the final `errChan`
check — a fatal listing error discards the accumulated map and is
returned instead. -/
def GetProjectCommitStats (projectID : String)
    (pages : List (Except String (List Commit)))
    (fetchDetail : Commit → Option CommitStats) :
    Except String (List (String × UserStats)) :=
  let listed := listCommits pages
  let works := listed.1.map (enrichCommit fetchDetail)
  let final := runReducer projectID initialReducerState works
  match listed.2 with
  | some e => Except.error e
  | none => Except.ok final.stats

/-! ## Cross-project merge -/

/-- The body of `MergeProjectStats`' inner project loop: add one
author's per-project contributions into the merged author's
`Projects` map, creating entries as needed. -/
def mergeProjects (acc entries : List (String × ProjectStats)) :
    List (String × ProjectStats) :=
  entries.foldl
    (fun ps pe =>
      let base := (lookupKey ps pe.1).getD zeroProjectStats
      setKey ps pe.1
        ⟨base.Additions + pe.2.Additions, base.Deletions + pe.2.Deletions,
          base.Changes + pe.2.Changes⟩)
    acc

/-- The body of `MergeProjectStats`' author loop for one `(author,
data)` entry of one per-project result map: skip authors outside a
non-empty allow-list, otherwise add the top-level totals and merge the
per-project entries. -/
def mergeUserEntry (targetUsers : List String)
    (acc : List (String × UserStats)) (e : String × UserStats) :
    List (String × UserStats) :=
  if targetUsers ≠ [] ∧ e.1 ∉ targetUsers then acc
  else
    let base := (lookupKey acc e.1).getD emptyUserStats
    let u : UserStats :=
      { base with
          Additions := base.Additions + e.2.Additions
          Deletions := base.Deletions + e.2.Deletions
          Changes := base.Changes + e.2.Changes
          Total := base.Total + e.2.Total }
    let u2 : UserStats := { u with Projects := mergeProjects u.Projects e.2.Projects }
    setKey acc e.1 u2

/-- `MergeProjectStats` (part_002 lines 431-478): fold every author
entry of every per-project result map into one merged map, honouring
the optional author allow-list. -/
def MergeProjectStats (projectsStats : List (List (String × UserStats)))
    (targetUsers : List String) : List (String × UserStats) :=
  projectsStats.foldl (fun acc m => m.foldl (mergeUserEntry targetUsers) acc) []

/-! ## The analyze subcommand -/

/-- Error behaviour of `ExportStatsToCSV` (pkg/excel): creating the
output directory can fail, and each exported author's file
creation/write can fail; with a healthy filesystem it always
succeeds, also on an empty map (the author loop just runs zero
times). -/
def exportStatsToCSV (mkdirOK : Bool) (writeOK : String → Bool)
    (stats : List (String × UserStats)) : Bool :=
  mkdirOK && stats.all fun e => writeOK e.1

/-- The project loop and tail of the `analyze` subcommand
(cmd/main.go lines 84-129): each project run that fails is reported as
a warning (collected here as its project ID) and skipped; the
successful runs are merged and exported.  `none` models the command
failing (`os.Exit(1)` on export error); `some (warnings, merged)`
models normal completion. -/
def analyzeCmd (runResults : List (String × Except String (List (String × UserStats))))
    (targetUsers : List String) (mkdirOK : Bool) (writeOK : String → Bool) :
    Option (List String × List (String × UserStats)) :=
  let collected :=
    runResults.foldl
      (fun (acc : List String × List (List (String × UserStats))) r =>
        match r.2 with
        | Except.error _ => (acc.1 ++ [r.1], acc.2)
        | Except.ok m => (acc.1, acc.2 ++ [m]))
      ([], [])
  let merged := MergeProjectStats collected.2 targetUsers
  if exportStatsToCSV mkdirOK writeOK merged then some (collected.1, merged)
  else none

/-! ## The worker's commit-ID slicing -/

/-- Go `len(s)` — the UTF-8 byte length of a string. -/
def goLen (s : String) : Nat := s.utf8ByteSize

/-- The worker's retry loop for one commit's detail request (part_002
lines 163-174).  Every iteration but the first logs with
`commit.ID[:8]`, which panics when the ID is shorter than 8 bytes:
`none` models that panic, `some none` an exhausted retry, `some (some
b)` a successful body. -/
def workerRetryLoop {β : Type} (request : Nat → Option β) (c : Commit) :
    Nat → Nat → Option (Option β)
  | _, 0 => some none
  | i, n + 1 =>
      if 0 < i ∧ goLen c.ID < 8 then none
      else
        match request i with
        | some b => some (some b)
        | none =>
            if n = 0 then some none else workerRetryLoop request c (i + 1) n

/-- A stats worker's handling of one commit (part_002 lines 153-199):
retry the detail request up to 5 times, then log-and-drop on a failed
request or a failed decode — both log paths slice `commit.ID[:8]` and
panic (`none`) on an ID shorter than 8 bytes. -/
def workerHandle {β : Type} (request : Nat → Option β)
    (decode : β → Option CommitStats) (c : Commit) : Option commitWork :=
  match workerRetryLoop request c 0 5 with
  | none => none
  | some none =>
      if goLen c.ID < 8 then none else some ⟨"", c, ⟨0, 0, 0⟩, true⟩
  | some (some b) =>
      match decode b with
      | none => if goLen c.ID < 8 then none else some ⟨"", c, ⟨0, 0, 0⟩, true⟩
      | some s => some ⟨"", c, s, false⟩

/-! ## Association-list lemmas -/

theorem lookupKey_setKey_self {α : Type} (m : List (String × α)) (k : String)
    (v : α) : lookupKey (setKey m k v) k = some v := by
  induction m with
  | nil => simp [setKey, lookupKey]
  | cons e rest ih =>
      by_cases h : e.1 = k
      · simp [setKey, h, lookupKey]
      · simp [setKey, h, lookupKey, ih]

theorem lookupKey_setKey_ne {α : Type} (m : List (String × α)) (k k2 : String)
    (v : α) (h : k2 ≠ k) : lookupKey (setKey m k v) k2 = lookupKey m k2 := by
  have hk : ¬k = k2 := fun hh => h hh.symm
  induction m with
  | nil => simp [setKey, lookupKey, hk]
  | cons e rest ih =>
      cases e with
      | mk ek ev =>
          by_cases he : ek = k
          · subst he
            simp [setKey, lookupKey, hk]
          · simp [setKey, lookupKey, he, ih]

theorem mem_setKey {α : Type} (m : List (String × α)) (k : String) (v : α)
    (e : String × α) (he : e ∈ setKey m k v) : e = (k, v) ∨ e ∈ m := by
  induction m with
  | nil => simpa [setKey] using he
  | cons f rest ih =>
      by_cases hf : f.1 = k
      · simp only [setKey, hf, if_pos rfl] at he
        rcases List.mem_cons.mp he with h | h
        · exact Or.inl h
        · exact Or.inr (List.mem_cons_of_mem f h)
      · simp only [setKey, hf, if_neg hf] at he
        rcases List.mem_cons.mp he with h | h
        · exact Or.inr (h ▸ List.mem_cons_self f rest)
        · rcases ih h with h2 | h2
          · exact Or.inl h2
          · exact Or.inr (List.mem_cons_of_mem f h2)

theorem lookupKey_mem {α : Type} (m : List (String × α)) (k : String) (v : α)
    (h : lookupKey m k = some v) : (k, v) ∈ m := by
  induction m with
  | nil => simp [lookupKey] at h
  | cons f rest ih =>
      cases f with
      | mk fk fv =>
          by_cases hf : fk = k
          · subst hf
            simp only [lookupKey, if_true, eq_self_iff_true, Option.some.injEq] at h
            subst h
            exact List.mem_cons_self _ _
          · simp only [lookupKey, if_neg hf] at h
            exact List.mem_cons_of_mem _ (ih h)

/-! ## Reducer step lemmas -/

theorem processWork_err (pid : String) (st : ReducerState) (w : commitWork)
    (h : w.err = true) : processWork pid st w = st := by
  simp [processWork, h]

theorem processWork_sig_seen (pid : String) (st : ReducerState)
    (w : commitWork) (h1 : w.err = false)
    (h2 : sigOf w ∈ st.commitSignatures) : processWork pid st w = st := by
  simp [processWork, h1, h2]

theorem processWork_sigs (pid : String) (st : ReducerState) (w : commitWork)
    (h1 : w.err = false) (h2 : sigOf w ∉ st.commitSignatures) :
    (processWork pid st w).commitSignatures = sigOf w :: st.commitSignatures := by
  simp only [processWork, h1, Bool.false_eq_true, if_false, if_neg h2]
  split
  · rfl
  · split
    · rfl
    · rfl

theorem processWork_sigs_mono (pid : String) (st : ReducerState)
    (w : commitWork) (s : CommitIdentifier) (hs : s ∈ st.commitSignatures) :
    s ∈ (processWork pid st w).commitSignatures := by
  cases hb : w.err with
  | true => rw [processWork_err _ _ _ hb]; exact hs
  | false =>
      by_cases h2 : sigOf w ∈ st.commitSignatures
      · rw [processWork_sig_seen _ _ _ hb h2]; exact hs
      · rw [processWork_sigs _ _ _ hb h2]
        exact List.mem_cons_of_mem _ hs

theorem processWork_sig_mem (pid : String) (st : ReducerState)
    (w : commitWork) (h1 : w.err = false) :
    sigOf w ∈ (processWork pid st w).commitSignatures := by
  by_cases h2 : sigOf w ∈ st.commitSignatures
  · rw [processWork_sig_seen _ _ _ h1 h2]; exact h2
  · rw [processWork_sigs _ _ _ h1 h2]; exact List.mem_cons_self _ _

theorem runReducer_cons (pid : String) (st : ReducerState) (w : commitWork)
    (l : List commitWork) :
    runReducer pid st (w :: l) = runReducer pid (processWork pid st w) l := rfl

theorem runReducer_append (pid : String) (st : ReducerState)
    (l1 l2 : List commitWork) :
    runReducer pid st (l1 ++ l2) = runReducer pid (runReducer pid st l1) l2 := by
  simp [runReducer, List.foldl_append]

theorem runReducer_sigs_mono (pid : String) (st : ReducerState)
    (l : List commitWork) (s : CommitIdentifier)
    (hs : s ∈ st.commitSignatures) :
    s ∈ (runReducer pid st l).commitSignatures := by
  induction l generalizing st with
  | nil => exact hs
  | cons w rest ih =>
      rw [runReducer_cons]
      exact ih _ (processWork_sigs_mono pid st w s hs)

theorem processWork_stats_of_processed (pid : String) (st : ReducerState)
    (w : commitWork) (h : w.commit.ID ∈ st.processedCommits) :
    (processWork pid st w).stats = st.stats := by
  cases hb : w.err with
  | true => rw [processWork_err _ _ _ hb]
  | false =>
      by_cases h2 : sigOf w ∈ st.commitSignatures
      · rw [processWork_sig_seen _ _ _ hb h2]
      · simp only [processWork, hb, Bool.false_eq_true, if_false, if_neg h2,
          if_pos h]
        split
        · rfl
        · rfl

theorem processWork_merge_drop (pid : String) (st : ReducerState)
    (w : commitWork) (h1 : w.err = false)
    (hm : w.commit.ParentIDs.length > 1)
    (hp : ∃ p ∈ w.commit.ParentIDs, p ∈ st.processedCommits) :
    (processWork pid st w).stats = st.stats := by
  by_cases h2 : sigOf w ∈ st.commitSignatures
  · rw [processWork_sig_seen _ _ _ h1 h2]
  · simp only [processWork, h1, Bool.false_eq_true, if_false, if_neg h2]
    rw [if_pos ⟨hm, hp⟩]

theorem processWork_counted_eq (pid : String) (st : ReducerState)
    (w : commitWork) (h1 : w.err = false)
    (h2 : sigOf w ∉ st.commitSignatures)
    (h3 : ¬(w.commit.ParentIDs.length > 1 ∧
        ∃ p ∈ w.commit.ParentIDs, p ∈ st.processedCommits))
    (h4 : w.commit.ID ∉ st.processedCommits) :
    processWork pid st w =
      ⟨applyStats pid st.stats w, w.commit.ID :: st.processedCommits,
        sigOf w :: st.commitSignatures⟩ := by
  simp only [processWork, h1, Bool.false_eq_true, if_false, if_neg h2]
  rw [if_neg h3, if_neg h4]

/-! ## Accumulation lemmas -/

theorem applyStats_topViewD (pid : String) (m : List (String × UserStats))
    (w : commitWork) :
    topViewD (applyStats pid m w) w.commit.AuthorName =
      topViewD m w.commit.AuthorName +
        (w.stats.Additions, w.stats.Deletions, w.stats.Total,
          w.stats.Additions + w.stats.Deletions) := by
  simp only [applyStats, topViewD, lookupKey_setKey_self, Option.getD_some,
    Prod.mk_add_mk]
  refine congrArg _ ?_
  refine congrArg _ ?_
  refine congrArg _ ?_
  exact add_assoc _ _ _

theorem applyStats_projViewD (pid : String) (m : List (String × UserStats))
    (w : commitWork) :
    projViewD (applyStats pid m w) w.commit.AuthorName pid =
      projViewD m w.commit.AuthorName pid +
        (w.stats.Additions, w.stats.Deletions, w.stats.Total) := by
  simp only [applyStats, projViewD, lookupKey_setKey_self, Option.getD_some,
    lookupKey_setKey_self, Prod.mk_add_mk]

theorem applyStats_other (pid : String) (m : List (String × UserStats))
    (w : commitWork) (a : String) (h : a ≠ w.commit.AuthorName) :
    lookupKey (applyStats pid m w) a = lookupKey m a := by
  simp only [applyStats]
  exact lookupKey_setKey_ne _ _ _ _ h

/-- The single-project shape invariant of the reducer's author map:
every author entry has exactly the current project in `Projects`, with
per-project fields mirroring the top-level ones, and `Total` equal to
`Additions + Deletions`. -/
def perProjectInv (pid : String) (m : List (String × UserStats)) : Prop :=
  ∀ e ∈ m,
    e.2.Projects = [(pid, ⟨e.2.Additions, e.2.Deletions, e.2.Changes⟩)] ∧
    e.2.Total = e.2.Additions + e.2.Deletions

theorem applyStats_preserves_inv (pid : String)
    (m : List (String × UserStats)) (w : commitWork)
    (hinv : perProjectInv pid m) : perProjectInv pid (applyStats pid m w) := by
  intro e he
  rcases mem_setKey _ _ _ _ he with hnew | hold
  · cases hbase : lookupKey m w.commit.AuthorName with
    | none =>
        subst hnew
        constructor
        · simp [applyStats, hbase, emptyUserStats, zeroProjectStats,
            lookupKey, setKey]
        · simp only [applyStats, hbase, Option.getD_none, emptyUserStats]
          ring
    | some b =>
        have hb := hinv (w.commit.AuthorName, b) (lookupKey_mem _ _ _ hbase)
        have hproj : b.Projects =
            [(pid, ⟨b.Additions, b.Deletions, b.Changes⟩)] := hb.1
        have htot : b.Total = b.Additions + b.Deletions := hb.2
        subst hnew
        constructor
        · simp only [applyStats, hbase, Option.getD_some]
          rw [hproj]
          simp [lookupKey, setKey, zeroProjectStats]
        · simp only [applyStats, hbase, Option.getD_some]
          rw [htot]
          ring
  · exact hinv e hold

theorem processWork_preserves_inv (pid : String) (st : ReducerState)
    (w : commitWork) (hinv : perProjectInv pid st.stats) :
    perProjectInv pid (processWork pid st w).stats := by
  cases hb : w.err with
  | true => rw [processWork_err _ _ _ hb]; exact hinv
  | false =>
      by_cases h2 : sigOf w ∈ st.commitSignatures
      · rw [processWork_sig_seen _ _ _ hb h2]; exact hinv
      · simp only [processWork, hb, Bool.false_eq_true, if_false, if_neg h2]
        split
        · exact hinv
        · split
          · exact hinv
          · exact applyStats_preserves_inv pid st.stats w hinv

theorem runReducer_preserves_inv (pid : String) (st : ReducerState)
    (l : List commitWork) (hinv : perProjectInv pid st.stats) :
    perProjectInv pid (runReducer pid st l).stats := by
  induction l generalizing st with
  | nil => exact hinv
  | cons w rest ih =>
      rw [runReducer_cons]
      exact ih _ (processWork_preserves_inv pid st w hinv)

/-! ## Example inputs used by the witnesses -/

/-- An ordinary (non-merge) commit whose upstream `Total` (9) differs
from additions+deletions (7). -/
def cAlice : Commit := ⟨"abcdefgh1111", "alice", ⟨5, 2, 9⟩, [], "feat: one"⟩

/-- The successful work item for `cAlice`. -/
def wAlice : commitWork := ⟨"", cAlice, ⟨5, 2, 9⟩, false⟩

/-- A distinct commit with the same message, author and diff stats as
`cAlice` — i.e. the same `CommitIdentifier` under a different ID. -/
def cAliceDup : Commit := ⟨"ffffffff2222", "alice", ⟨5, 2, 9⟩, [], "feat: one"⟩

/-- The successful work item for `cAliceDup`. -/
def wAliceDup : commitWork := ⟨"", cAliceDup, ⟨5, 2, 9⟩, false⟩

/-- A merge commit (two parents) by carol. -/
def cCarolMerge : Commit :=
  ⟨"abcdefgh3333", "carol", ⟨3, 1, 4⟩, ["p1", "p2"], "merge branch"⟩

/-- The successful work item for `cCarolMerge`. -/
def wCarolMerge : commitWork := ⟨"", cCarolMerge, ⟨3, 1, 4⟩, false⟩

/-- A non-merge commit by carol bearing the same signature as
`cCarolMerge` under a different ID. -/
def cCarolDup : Commit :=
  ⟨"eeeeeeee4444", "carol", ⟨3, 1, 4⟩, [], "merge branch"⟩

/-- The successful work item for `cCarolDup`. -/
def wCarolDup : commitWork := ⟨"", cCarolDup, ⟨3, 1, 4⟩, false⟩

/-- A reducer state in which parent `p1` has already been processed. -/
def stParentDone : ReducerState := ⟨[], ["p1"], []⟩

/-! ## C1 -/

/-- C1: a successful work item that passes the signature, merge-parent
and duplicate-ID rules updates the author's top-level totals by
exactly `(+additions, +deletions, +diff.total, +(additions+deletions))`
and the author's entry for the current project by exactly
`(+additions, +deletions, +diff.total)` (the `ProjectStats` type has
no `Total` field), leaving every other author's entry untouched;
`diff.total` is propagated as reported, not recomputed. -/
theorem C1_counted_commit_updates_exactly (pid : String) (st : ReducerState)
    (w : commitWork) (h1 : w.err = false)
    (h2 : sigOf w ∉ st.commitSignatures)
    (h3 : ¬(w.commit.ParentIDs.length > 1 ∧
        ∃ p ∈ w.commit.ParentIDs, p ∈ st.processedCommits))
    (h4 : w.commit.ID ∉ st.processedCommits) :
    topViewD (processWork pid st w).stats w.commit.AuthorName =
      topViewD st.stats w.commit.AuthorName +
        (w.stats.Additions, w.stats.Deletions, w.stats.Total,
          w.stats.Additions + w.stats.Deletions) ∧
    projViewD (processWork pid st w).stats w.commit.AuthorName pid =
      projViewD st.stats w.commit.AuthorName pid +
        (w.stats.Additions, w.stats.Deletions, w.stats.Total) ∧
    ∀ a, a ≠ w.commit.AuthorName →
      lookupKey (processWork pid st w).stats a = lookupKey st.stats a := by
  rw [processWork_counted_eq pid st w h1 h2 h3 h4]
  exact ⟨applyStats_topViewD pid st.stats w,
    applyStats_projViewD pid st.stats w,
    fun a ha => applyStats_other pid st.stats w a ha⟩

/-- C1 witness: the update at a concrete input whose `diff.total` (9)
differs from additions+deletions (7). -/
theorem C1_witness :
    topViewD (processWork "7" initialReducerState wAlice).stats "alice" =
      topViewD initialReducerState.stats "alice" + (5, 2, 9, 5 + 2) ∧
    projViewD (processWork "7" initialReducerState wAlice).stats "alice" "7" =
      projViewD initialReducerState.stats "alice" "7" + (5, 2, 9) :=
  ⟨(C1_counted_commit_updates_exactly "7" initialReducerState wAlice rfl
      (by decide) (by decide) (by decide)).1,
    (C1_counted_commit_updates_exactly "7" initialReducerState wAlice rfl
      (by decide) (by decide) (by decide)).2.1⟩

/-! ## C2 -/

/-- C2: in any run, a successful work item whose signature is already
in the seen-signature set when it is processed contributes nothing at
all — the run's final state (so every top-level and per-project
total) is the same as if the item had not arrived.  The hypothesis
mentions only the signature, so the result holds regardless of the
commit's ID. -/
theorem C2_seen_signature_contributes_zero (pid : String)
    (st0 : ReducerState) (l1 l2 : List commitWork) (w : commitWork)
    (h1 : w.err = false)
    (h2 : sigOf w ∈ (runReducer pid st0 l1).commitSignatures) :
    runReducer pid st0 (l1 ++ (w :: l2)) = runReducer pid st0 (l1 ++ l2) := by
  rw [runReducer_append, runReducer_append, runReducer_cons,
    processWork_sig_seen _ _ _ h1 h2]

/-- C2 witness: `wAliceDup` has a distinct commit ID but the same
signature as the already-counted `wAlice`, and contributes nothing. -/
theorem C2_witness :
    runReducer "7" initialReducerState ([wAlice] ++ ([wAliceDup] ++ [])) =
      runReducer "7" initialReducerState ([wAlice] ++ []) :=
  C2_seen_signature_contributes_zero "7" initialReducerState [wAlice] []
    wAliceDup rfl (by decide)

/-! ## C3 -/

/-- C3: a successful merge commit (more than one parent) whose parent
set meets the processed-ID set contributes zero to every total; one
none of whose parents has been processed (with a fresh signature and a
fresh ID) contributes its full diff stats to the author's top-level
and per-project totals. -/
theorem C3_merge_commit_rule (pid : String) (st : ReducerState)
    (w : commitWork) (h1 : w.err = false)
    (hm : w.commit.ParentIDs.length > 1) :
    ((∃ p ∈ w.commit.ParentIDs, p ∈ st.processedCommits) →
      (processWork pid st w).stats = st.stats) ∧
    ((∀ p ∈ w.commit.ParentIDs, p ∉ st.processedCommits) →
      sigOf w ∉ st.commitSignatures →
      w.commit.ID ∉ st.processedCommits →
      topViewD (processWork pid st w).stats w.commit.AuthorName =
        topViewD st.stats w.commit.AuthorName +
          (w.stats.Additions, w.stats.Deletions, w.stats.Total,
            w.stats.Additions + w.stats.Deletions) ∧
      projViewD (processWork pid st w).stats w.commit.AuthorName pid =
        projViewD st.stats w.commit.AuthorName pid +
          (w.stats.Additions, w.stats.Deletions, w.stats.Total)) := by
  constructor
  · intro hp
    exact processWork_merge_drop pid st w h1 hm hp
  · intro hnp h2 h4
    have h3 : ¬(w.commit.ParentIDs.length > 1 ∧
        ∃ p ∈ w.commit.ParentIDs, p ∈ st.processedCommits) := by
      rintro ⟨-, p, hp1, hp2⟩
      exact hnp p hp1 hp2
    rw [processWork_counted_eq pid st w h1 h2 h3 h4]
    exact ⟨applyStats_topViewD pid st.stats w,
      applyStats_projViewD pid st.stats w⟩

/-- C3 witness: the merge commit `wCarolMerge` is dropped when parent
`p1` is already processed, and is counted in full from the empty
state. -/
theorem C3_witness :
    (processWork "7" stParentDone wCarolMerge).stats = stParentDone.stats ∧
    topViewD (processWork "7" initialReducerState wCarolMerge).stats "carol" =
      topViewD initialReducerState.stats "carol" + (3, 1, 4, 3 + 1) :=
  ⟨(C3_merge_commit_rule "7" stParentDone wCarolMerge rfl (by decide)).1
      (by decide),
    ((C3_merge_commit_rule "7" initialReducerState wCarolMerge rfl
        (by decide)).2 (by decide) (by decide) (by decide)).1⟩

/-! ## C4 -/

/-- C4: a work item occurring twice in one project run (duplicate page
entries deliver the identical commit record twice) is counted at most
once: the run is identical to the run without the second occurrence,
so the duplicated ID's stats enter the accumulating map exactly once
and are attributed to at most one author.  (No error hypothesis is
needed: an error item contributes nothing either way.) -/
theorem C4_duplicate_id_counted_once (pid : String) (st0 : ReducerState)
    (l1 l2 l3 : List commitWork) (w : commitWork) :
    runReducer pid st0 (l1 ++ (w :: (l2 ++ (w :: l3)))) =
      runReducer pid st0 (l1 ++ (w :: (l2 ++ l3))) := by
  simp only [runReducer_append, runReducer_cons]
  congr 1
  cases hb : w.err with
  | true => exact processWork_err _ _ _ hb
  | false =>
      exact processWork_sig_seen _ _ _ hb
        (runReducer_sigs_mono _ _ _ _ (processWork_sig_mem _ _ _ hb))

/-! ## C5 -/

/-- C5 counterexample: a successful commit dropped by the merge-parent
rule does NOT leave the seen-signature set unchanged — `wCarolMerge`
is dropped (its parent `p1` is processed, and its stats stay empty)
yet its signature is recorded. -/
theorem C5_counterexample :
    (processWork "7" stParentDone wCarolMerge).stats = stParentDone.stats ∧
    (processWork "7" stParentDone wCarolMerge).commitSignatures ≠
      stParentDone.commitSignatures := by
  constructor
  · decide
  · decide

/-- C5 amended: the reducer records the signature in step 2,
immediately after the not-yet-seen check and before the merge-parent
and duplicate-ID rules.  Every successful commit with a fresh
signature — counted or dropped by steps 3/4 — pushes its signature
onto the seen set, so a later distinct commit bearing the same
signature is never counted. -/
theorem C5_amended_signature_recorded_before_drops (pid : String)
    (st : ReducerState) (w w2 : commitWork) (h1 : w.err = false)
    (h2 : sigOf w ∉ st.commitSignatures) (h1b : w2.err = false)
    (hsig : sigOf w2 = sigOf w) :
    (processWork pid st w).commitSignatures =
      sigOf w :: st.commitSignatures ∧
    processWork pid (processWork pid st w) w2 = processWork pid st w := by
  refine ⟨processWork_sigs pid st w h1 h2, ?_⟩
  refine processWork_sig_seen _ _ _ h1b ?_
  rw [hsig]
  exact processWork_sig_mem _ _ _ h1

/-- C5 witness: after the dropped merge commit `wCarolMerge`, the
distinct same-signature commit `wCarolDup` is a no-op. -/
theorem C5_witness :
    (processWork "7" stParentDone wCarolMerge).commitSignatures =
      sigOf wCarolMerge :: stParentDone.commitSignatures ∧
    processWork "7" (processWork "7" stParentDone wCarolMerge) wCarolDup =
      processWork "7" stParentDone wCarolMerge :=
  C5_amended_signature_recorded_before_drops "7" stParentDone wCarolMerge
    wCarolDup rfl (by decide) rfl (by decide)

/-! ## C9 -/

/-- C9: in a successful `GetProjectCommitStats` result, every author's
`Projects` map has exactly the one key `projectID`, that entry's
additions/deletions/changes equal the author's top-level ones, and the
top-level `Total` equals top-level additions plus deletions. -/
theorem C9_single_project_result_shape (pid : String)
    (pages : List (Except String (List Commit)))
    (fetchDetail : Commit → Option CommitStats)
    (m : List (String × UserStats))
    (h : GetProjectCommitStats pid pages fetchDetail = Except.ok m) :
    ∀ e ∈ m,
      e.2.Projects =
        [(pid, ⟨e.2.Additions, e.2.Deletions, e.2.Changes⟩)] ∧
      e.2.Total = e.2.Additions + e.2.Deletions := by
  have hstats : m = (runReducer pid initialReducerState
      ((listCommits pages).1.map (enrichCommit fetchDetail))).stats := by
    simp only [GetProjectCommitStats] at h
    cases hl : (listCommits pages).2 with
    | some err => rw [hl] at h; simp at h
    | none =>
        rw [hl] at h
        simpa using h.symm
  have hinv0 : perProjectInv pid initialReducerState.stats := by
    intro e he
    simp [initialReducerState] at he
  have hfin := runReducer_preserves_inv pid initialReducerState
    ((listCommits pages).1.map (enrichCommit fetchDetail)) hinv0
  rw [hstats]
  exact hfin

/-- C9 witness: a one-page run with two commits by alice (upstream
totals deliberately different from additions+deletions). -/
theorem C9_witness :
    ("alice",
      ({ Additions := 5, Deletions := 2, Changes := 9, Total := 7,
         Projects := [("7", ⟨5, 2, 9⟩)] } : UserStats)) ∈
      [("alice",
        ({ Additions := 5, Deletions := 2, Changes := 9, Total := 7,
           Projects := [("7", ⟨5, 2, 9⟩)] } : UserStats))] ∧
    ([("7", (⟨5, 2, 9⟩ : ProjectStats))] =
        [("7", (⟨5, 2, 9⟩ : ProjectStats))] ∧
      (7 : Int) = 5 + 2) :=
  ⟨by decide,
    C9_single_project_result_shape "7" [Except.ok [cAlice], Except.ok []]
      (fun c => some c.Stats)
      [("alice",
        { Additions := 5, Deletions := 2, Changes := 9, Total := 7,
          Projects := [("7", ⟨5, 2, 9⟩)] })]
      (by rfl)
      ("alice",
        { Additions := 5, Deletions := 2, Changes := 9, Total := 7,
          Projects := [("7", ⟨5, 2, 9⟩)] })
      (by decide)⟩

/-! ## C6 -/

theorem retryCall_all_fail {β : Type} (attempt : Nat → Except String β)
    (es : Nat → String) (hfail : ∀ k, k < 5 → attempt k = Except.error (es k)) :
    retryCall attempt 0 5 = Except.error (es 4) := by
  have h0 := hfail 0 (by norm_num)
  have h1 := hfail 1 (by norm_num)
  have h2 := hfail 2 (by norm_num)
  have h3 := hfail 3 (by norm_num)
  have h4 := hfail 4 (by norm_num)
  simp [retryCall, h0, h1, h2, h3, h4]

/-- The fatal error of a failing page survives to the end of the
pagination loop, whatever commits the earlier pages produced. -/
theorem listCommits_fatal (goodPages : List (List Commit)) (e : String)
    (hgood : ∀ cs ∈ goodPages, cs ≠ []) :
    (listCommits (goodPages.map Except.ok ++ [Except.error e])).2 = some e := by
  induction goodPages with
  | nil => simp [listCommits]
  | cons cs rest ih =>
      have hcs : cs ≠ [] := hgood cs (List.mem_cons_self _ _)
      simp only [List.map_cons, List.cons_append, listCommits,
        List.isEmpty_eq_true]
      rw [if_neg hcs]
      exact ih fun x hx => hgood x (List.mem_cons_of_mem _ hx)

/-- C6: when one page of the lister fails all 5 attempts, the page's
(and hence the run's) fatal error is the last attempt's error; the
whole project run then returns that error and no result map — the
partial accumulation is discarded — while the analyze driver still
merges the other projects' results, reporting the failed project only
as a warning. -/
theorem C6_fatal_listing_fails_closed {β : Type} (pid otherID : String)
    (goodPages : List (List Commit)) (attempt : Nat → Except String β)
    (decode : β → Except String (List Commit))
    (fetchDetail : Commit → Option CommitStats) (es : Nat → String)
    (m : List (String × UserStats)) (users : List String)
    (hfail : ∀ k, k < 5 → attempt k = Except.error (es k))
    (hgood : ∀ cs ∈ goodPages, cs ≠ []) :
    fetchPage attempt decode = Except.error (es 4) ∧
    GetProjectCommitStats pid
        (goodPages.map Except.ok ++ [fetchPage attempt decode]) fetchDetail =
      Except.error (es 4) ∧
    analyzeCmd [(otherID, Except.ok m), (pid, Except.error (es 4))] users
        true (fun _ => true) =
      some ([pid], MergeProjectStats [m] users) := by
  have hp : fetchPage attempt decode = Except.error (es 4) := by
    simp [fetchPage, retryCall_all_fail attempt es hfail]
  refine ⟨hp, ?_, ?_⟩
  · rw [hp]
    simp only [GetProjectCommitStats,
      listCommits_fatal goodPages (es 4) hgood]
  · simp [analyzeCmd, exportStatsToCSV, List.all_eq_true]

/-- A sample per-project result map for bob, used by the C6 witness. -/
def mBob : List (String × UserStats) :=
  [("bob", ⟨1, 1, 2, 2, [("1", ⟨1, 1, 2⟩)]⟩)]

/-- C6 witness: page 2 fails all five attempts with a network error;
the run for project "2" fails closed while project "1" still reaches
the merge. -/
theorem C6_witness :
    fetchPage (fun _ => Except.error "netdown")
        (fun _ : Unit => Except.ok ([] : List Commit)) =
      Except.error "netdown" ∧
    GetProjectCommitStats "2"
        ([[cAlice]].map Except.ok ++
          [fetchPage (fun _ => Except.error "netdown")
            (fun _ : Unit => Except.ok ([] : List Commit))])
        (fun c => some c.Stats) =
      Except.error "netdown" ∧
    analyzeCmd [("1", Except.ok mBob), ("2", Except.error "netdown")] []
        true (fun _ => true) =
      some (["2"], MergeProjectStats [mBob] []) :=
  C6_fatal_listing_fails_closed "2" "1" [[cAlice]]
    (fun _ => Except.error "netdown")
    (fun _ : Unit => Except.ok ([] : List Commit))
    (fun c => some c.Stats) (fun _ => "netdown") mBob []
    (fun _ _ => rfl) (by decide)

/-! ## C8 -/

/-- The project IDs whose runs failed, in loop order. -/
def failedProjects
    (rs : List (String × Except String (List (String × UserStats)))) :
    List String :=
  rs.filterMap fun r =>
    match r.2 with
    | Except.error _ => some r.1
    | Except.ok _ => none

/-- The result maps of the successful runs, in loop order. -/
def successfulMaps
    (rs : List (String × Except String (List (String × UserStats)))) :
    List (List (String × UserStats)) :=
  rs.filterMap fun r => r.2.toOption

/-- C8 counterexample: with its only project failing (zero successful
projects) and a healthy filesystem, the analyze command still
completes successfully — it merges an empty map, exports nothing and
does not fail. -/
theorem C8_counterexample :
    analyzeCmd [("1", Except.error "listing failed")] [] true
        (fun _ => true) =
      some (["1"], []) ∧
    (analyzeCmd [("1", Except.error "listing failed")] [] true
        (fun _ => true)).isSome = true := by
  constructor
  · rfl
  · rfl

/-- C8 amended: every failed project run is reported as a warning and
excluded from the merge, and (with a healthy filesystem) the command
always completes successfully with the merge of the successful runs —
including when zero projects succeeded, in which case it merges an
empty list of maps and exports nothing. -/
theorem C8_amended_failures_warned_and_skipped
    (runResults : List (String × Except String (List (String × UserStats))))
    (targetUsers : List String) :
    analyzeCmd runResults targetUsers true (fun _ => true) =
      some (failedProjects runResults,
        MergeProjectStats (successfulMaps runResults) targetUsers) := by
  have hcol : ∀ (rs : List (String × Except String (List (String × UserStats))))
      (acc : List String × List (List (String × UserStats))),
      rs.foldl
        (fun (acc : List String × List (List (String × UserStats))) r =>
          match r.2 with
          | Except.error _ => (acc.1 ++ [r.1], acc.2)
          | Except.ok mm => (acc.1, acc.2 ++ [mm])) acc =
      (acc.1 ++ failedProjects rs, acc.2 ++ successfulMaps rs) := by
    intro rs
    induction rs with
    | nil =>
        intro acc
        simp [failedProjects, successfulMaps]
    | cons r rest ih =>
        intro acc
        cases hr : r.2 with
        | error err =>
            simp [hr, ih, failedProjects, successfulMaps,
              List.filterMap_cons, Except.toOption]
        | ok mm =>
            simp [hr, ih, failedProjects, successfulMaps,
              List.filterMap_cons, Except.toOption]
  simp only [analyzeCmd, hcol, List.nil_append]
  simp [exportStatsToCSV, List.all_eq_true]

/-! ## C10 -/

theorem workerRetryLoop_safe {β : Type} (request : Nat → Option β)
    (c : Commit) (hlen : 8 ≤ goLen c.ID) :
    ∀ n i, workerRetryLoop request c i n ≠ none := by
  intro n
  induction n with
  | zero =>
      intro i
      simp [workerRetryLoop]
  | succ n ih =>
      intro i
      have hcond : ¬(0 < i ∧ goLen c.ID < 8) := by
        rintro ⟨-, hlt⟩
        omega
      simp only [workerRetryLoop, if_neg hcond]
      cases hreq : request i with
      | some b => simp
      | none =>
          by_cases hn : n = 0
          · simp [hn]
          · simp [hn]
            exact ih (i + 1)

/-- C10: every retry, fetch-failure or decode-failure log path of the
stats worker slices `commit.ID[:8]`; a commit ID of at least 8 bytes
is always safe, but a worker given a commit whose ID is shorter than
8 bytes and whose detail fetch fails panics (models the run crashing)
instead of dropping the commit. -/
theorem C10_short_id_slice_panics :
    (∀ (β : Type) (request : Nat → Option β)
        (decode : β → Option CommitStats) (c : Commit),
      8 ≤ goLen c.ID → (workerHandle request decode c).isSome = true) ∧
    workerHandle (fun _ => (none : Option Unit)) (fun _ => none)
        ⟨"abc", "dave", ⟨1, 0, 1⟩, [], "tiny"⟩ = none := by
  constructor
  · intro β request decode c hlen
    have hnot : ¬goLen c.ID < 8 := by omega
    simp only [workerHandle]
    cases hloop : workerRetryLoop request c 0 5 with
    | none => exact absurd hloop (workerRetryLoop_safe request c hlen 5 0)
    | some ob =>
        cases ob with
        | none => simp [if_neg hnot]
        | some b =>
            cases hdec : decode b with
            | none => simp [hdec, if_neg hnot]
            | some s => simp [hdec]
  · decide

/-- C10 witness: a failing fetch on a full-length commit ID is handled
safely (the commit is dropped, no panic). -/
theorem C10_witness :
    (workerHandle (fun _ => (none : Option Unit)) (fun _ => none)
      cAlice).isSome = true :=
  C10_short_id_slice_panics.1 Unit (fun _ => none) (fun _ => none) cAlice
    (by decide)

/-! ## C7: characterising the merge -/

/-- The per-project triple stored for `pid`, absent read as zero. -/
def projTripleD (ps : List (String × ProjectStats)) (pid : String) :
    Int × Int × Int :=
  let p := (lookupKey ps pid).getD zeroProjectStats
  (p.Additions, p.Deletions, p.Changes)

/-- Top-level contribution of one author entry of one input map to the
merged entry of author `a` (zero when skipped by the allow-list or for
another author). -/
def entryTop (us : List String) (a : String) (e : String × UserStats) :
    Int × Int × Int × Int :=
  if ¬(us ≠ [] ∧ e.1 ∉ us) ∧ e.1 = a then
    (e.2.Additions, e.2.Deletions, e.2.Changes, e.2.Total)
  else ((0 : Int), (0 : Int), (0 : Int), (0 : Int))

/-- Sum of the triples stored under `pid` in one entry list. -/
def projDelta (entries : List (String × ProjectStats)) (pid : String) :
    Int × Int × Int :=
  (entries.map fun pe =>
    if pe.1 = pid then (pe.2.Additions, pe.2.Deletions, pe.2.Changes)
    else ((0 : Int), (0 : Int), (0 : Int))).sum

/-- Per-project contribution of one author entry of one input map to
the merged `(a, pid)` cell. -/
def entryProj (us : List String) (a pid : String) (e : String × UserStats) :
    Int × Int × Int :=
  if ¬(us ≠ [] ∧ e.1 ∉ us) ∧ e.1 = a then projDelta e.2.Projects pid
  else ((0 : Int), (0 : Int), (0 : Int))

/-- One input map contributes an author entry for `a` (so the merged
map will have one). -/
def contributesUser (us : List String) (a : String)
    (m : List (String × UserStats)) : Prop :=
  ∃ e ∈ m, e.1 = a ∧ ¬(us ≠ [] ∧ e.1 ∉ us)

/-- One input map contributes a `(a, pid)` project cell. -/
def contributesProj (us : List String) (a pid : String)
    (m : List (String × UserStats)) : Prop :=
  ∃ e ∈ m, e.1 = a ∧ ¬(us ≠ [] ∧ e.1 ∉ us) ∧ ∃ pe ∈ e.2.Projects, pe.1 = pid

theorem mergeProjects_tripleD (pid : String)
    (entries : List (String × ProjectStats)) :
    ∀ ps, projTripleD (mergeProjects ps entries) pid =
      projTripleD ps pid + projDelta entries pid := by
  induction entries with
  | nil =>
      intro ps
      simp [mergeProjects, projDelta]
  | cons pe rest ih =>
      intro ps
      have hstep : mergeProjects ps (pe :: rest) =
          mergeProjects
            (setKey ps pe.1
              ⟨((lookupKey ps pe.1).getD zeroProjectStats).Additions +
                  pe.2.Additions,
                ((lookupKey ps pe.1).getD zeroProjectStats).Deletions +
                  pe.2.Deletions,
                ((lookupKey ps pe.1).getD zeroProjectStats).Changes +
                  pe.2.Changes⟩) rest := rfl
      rw [hstep, ih]
      by_cases hpe : pe.1 = pid
      · subst hpe
        simp only [projTripleD, lookupKey_setKey_self, Option.getD_some,
          projDelta, List.map_cons, List.sum_cons, if_pos rfl]
        rw [← add_assoc]
        cases hbase : lookupKey ps pe.1 with
        | none =>
            simp [hbase, zeroProjectStats, Prod.mk_add_mk]
        | some b =>
            simp [hbase, Prod.mk_add_mk]
      · have hne : pid ≠ pe.1 := fun hh => hpe hh.symm
        simp only [projTripleD, lookupKey_setKey_ne _ _ _ _ hne, projDelta,
          List.map_cons, List.sum_cons, if_neg hpe, Prod.mk_zero_zero,
          zero_add]

theorem mergeProjects_isSome (pid : String)
    (entries : List (String × ProjectStats)) :
    ∀ ps, (lookupKey (mergeProjects ps entries) pid).isSome = true ↔
      ((lookupKey ps pid).isSome = true ∨ ∃ pe ∈ entries, pe.1 = pid) := by
  induction entries with
  | nil =>
      intro ps
      simp [mergeProjects]
  | cons pe rest ih =>
      intro ps
      have hstep : mergeProjects ps (pe :: rest) =
          mergeProjects
            (setKey ps pe.1
              ⟨((lookupKey ps pe.1).getD zeroProjectStats).Additions +
                  pe.2.Additions,
                ((lookupKey ps pe.1).getD zeroProjectStats).Deletions +
                  pe.2.Deletions,
                ((lookupKey ps pe.1).getD zeroProjectStats).Changes +
                  pe.2.Changes⟩) rest := rfl
      rw [hstep, ih]
      by_cases hpe : pe.1 = pid
      · subst hpe
        simp [lookupKey_setKey_self]
      · rw [lookupKey_setKey_ne _ _ _ _ (fun hh => hpe hh.symm)]
        constructor
        · rintro (hs | ⟨q, hq, hq2⟩)
          · exact Or.inl hs
          · exact Or.inr ⟨q, List.mem_cons_of_mem _ hq, hq2⟩
        · rintro (hs | ⟨q, hq, hq2⟩)
          · exact Or.inl hs
          · rcases List.mem_cons.mp hq with rfl | hq3
            · exact absurd hq2 hpe
            · exact Or.inr ⟨q, hq3, hq2⟩

theorem projViewD_eq_tripleD (m : List (String × UserStats)) (a pid : String) :
    projViewD m a pid =
      projTripleD ((lookupKey m a).getD emptyUserStats).Projects pid := rfl

theorem projView_isSome_iff (m : List (String × UserStats)) (a pid : String) :
    (projView m a pid).isSome = true ↔
      ∃ u, lookupKey m a = some u ∧
        (lookupKey u.Projects pid).isSome = true := by
  cases hl : lookupKey m a with
  | none => simp [projView, hl]
  | some u => simp [projView, hl]

theorem mergeUserEntry_skip (us : List String)
    (acc : List (String × UserStats)) (e : String × UserStats)
    (h : us ≠ [] ∧ e.1 ∉ us) : mergeUserEntry us acc e = acc := by
  simp [mergeUserEntry, h]

theorem mergeUserEntry_eq (us : List String)
    (acc : List (String × UserStats)) (e : String × UserStats)
    (h : ¬(us ≠ [] ∧ e.1 ∉ us)) :
    mergeUserEntry us acc e =
      setKey acc e.1
        { Additions := ((lookupKey acc e.1).getD emptyUserStats).Additions +
            e.2.Additions
          Deletions := ((lookupKey acc e.1).getD emptyUserStats).Deletions +
            e.2.Deletions
          Changes := ((lookupKey acc e.1).getD emptyUserStats).Changes +
            e.2.Changes
          Total := ((lookupKey acc e.1).getD emptyUserStats).Total + e.2.Total
          Projects := mergeProjects
            ((lookupKey acc e.1).getD emptyUserStats).Projects
            e.2.Projects } := by
  simp only [mergeUserEntry, if_neg h]

theorem mergeUserEntry_topViewD (us : List String)
    (acc : List (String × UserStats)) (e : String × UserStats) (a : String) :
    topViewD (mergeUserEntry us acc e) a =
      topViewD acc a + entryTop us a e := by
  by_cases hskip : us ≠ [] ∧ e.1 ∉ us
  · rw [mergeUserEntry_skip us acc e hskip]
    have hz : entryTop us a e = 0 := by
      simp [entryTop, hskip]
    rw [hz, add_zero]
  · rw [mergeUserEntry_eq us acc e hskip]
    by_cases ha : e.1 = a
    · subst ha
      simp only [topViewD, lookupKey_setKey_self, Option.getD_some, entryTop,
        hskip, not_false_iff, true_and, if_pos rfl, Prod.mk_add_mk]
      simp [hskip]
    · have hne : a ≠ e.1 := fun hh => ha hh.symm
      simp only [topViewD, lookupKey_setKey_ne _ _ _ _ hne, entryTop, ha,
        and_false, if_false, Prod.mk_zero_zero, add_zero]

theorem mergeUserEntry_projViewD (us : List String)
    (acc : List (String × UserStats)) (e : String × UserStats)
    (a pid : String) :
    projViewD (mergeUserEntry us acc e) a pid =
      projViewD acc a pid + entryProj us a pid e := by
  by_cases hskip : us ≠ [] ∧ e.1 ∉ us
  · rw [mergeUserEntry_skip us acc e hskip]
    have hz : entryProj us a pid e = 0 := by
      simp [entryProj, hskip]
    rw [hz, add_zero]
  · rw [mergeUserEntry_eq us acc e hskip]
    by_cases ha : e.1 = a
    · subst ha
      rw [projViewD_eq_tripleD, projViewD_eq_tripleD, lookupKey_setKey_self]
      simp only [Option.getD_some]
      rw [mergeProjects_tripleD]
      have hpos : entryProj us e.1 pid e = projDelta e.2.Projects pid := by
        simp [entryProj, hskip]
      rw [hpos]
    · have hne : a ≠ e.1 := fun hh => ha hh.symm
      rw [projViewD_eq_tripleD, projViewD_eq_tripleD,
        lookupKey_setKey_ne _ _ _ _ hne]
      have hz : entryProj us a pid e = 0 := by
        simp [entryProj, ha]
      rw [hz, add_zero]

theorem mergeUserEntry_isSome (us : List String)
    (acc : List (String × UserStats)) (e : String × UserStats) (a : String) :
    (lookupKey (mergeUserEntry us acc e) a).isSome = true ↔
      (lookupKey acc a).isSome = true ∨
        (¬(us ≠ [] ∧ e.1 ∉ us) ∧ e.1 = a) := by
  by_cases hskip : us ≠ [] ∧ e.1 ∉ us
  · rw [mergeUserEntry_skip us acc e hskip]
    simp [hskip]
  · rw [mergeUserEntry_eq us acc e hskip]
    by_cases ha : e.1 = a
    · subst ha
      simp [lookupKey_setKey_self, hskip]
    · have hne : a ≠ e.1 := fun hh => ha hh.symm
      rw [lookupKey_setKey_ne _ _ _ _ hne]
      simp [ha]

theorem mergeUserEntry_projSome (us : List String)
    (acc : List (String × UserStats)) (e : String × UserStats)
    (a pid : String) :
    (projView (mergeUserEntry us acc e) a pid).isSome = true ↔
      (projView acc a pid).isSome = true ∨
        (¬(us ≠ [] ∧ e.1 ∉ us) ∧ e.1 = a ∧
          ∃ pe ∈ e.2.Projects, pe.1 = pid) := by
  by_cases hskip : us ≠ [] ∧ e.1 ∉ us
  · rw [mergeUserEntry_skip us acc e hskip]
    simp [hskip]
  · rw [mergeUserEntry_eq us acc e hskip]
    by_cases ha : e.1 = a
    · subst ha
      rw [projView_isSome_iff, projView_isSome_iff]
      simp only [lookupKey_setKey_self, Option.some.injEq]
      constructor
      · rintro ⟨u, hu, hsome⟩
        subst hu
        rw [mergeProjects_isSome] at hsome
        rcases hsome with hbaseSome | hentries
        · left
          cases hbase : lookupKey acc e.1 with
          | none =>
              rw [hbase] at hbaseSome
              simp [emptyUserStats, lookupKey] at hbaseSome
          | some b =>
              rw [hbase] at hbaseSome
              exact ⟨b, rfl, by simpa using hbaseSome⟩
        · exact Or.inr ⟨hskip, by trivial, hentries⟩
      · rintro (⟨u, hu, hsome⟩ | ⟨-, -, hentries⟩)
        · refine ⟨_, rfl, ?_⟩
          rw [mergeProjects_isSome]
          left
          rw [hu]
          simpa using hsome
        · refine ⟨_, rfl, ?_⟩
          rw [mergeProjects_isSome]
          exact Or.inr hentries
    · have hne : a ≠ e.1 := fun hh => ha hh.symm
      simp only [projView, lookupKey_setKey_ne _ _ _ _ hne]
      simp [ha, projView]

theorem foldl_mergeUserEntry_top (us : List String) (a : String)
    (m : List (String × UserStats)) :
    ∀ acc, topViewD (m.foldl (mergeUserEntry us) acc) a =
      topViewD acc a + (m.map (entryTop us a)).sum := by
  induction m with
  | nil =>
      intro acc
      simp
  | cons e rest ih =>
      intro acc
      simp only [List.foldl_cons, List.map_cons, List.sum_cons]
      rw [ih, mergeUserEntry_topViewD, add_assoc]

theorem foldl_mergeUserEntry_proj (us : List String) (a pid : String)
    (m : List (String × UserStats)) :
    ∀ acc, projViewD (m.foldl (mergeUserEntry us) acc) a pid =
      projViewD acc a pid + (m.map (entryProj us a pid)).sum := by
  induction m with
  | nil =>
      intro acc
      simp
  | cons e rest ih =>
      intro acc
      simp only [List.foldl_cons, List.map_cons, List.sum_cons]
      rw [ih, mergeUserEntry_projViewD, add_assoc]

theorem foldl_mergeUserEntry_isSome (us : List String) (a : String)
    (m : List (String × UserStats)) :
    ∀ acc, (lookupKey (m.foldl (mergeUserEntry us) acc) a).isSome = true ↔
      ((lookupKey acc a).isSome = true ∨ contributesUser us a m) := by
  induction m with
  | nil =>
      intro acc
      simp [contributesUser]
  | cons e rest ih =>
      intro acc
      have hcons : contributesUser us a (e :: rest) ↔
          (e.1 = a ∧ ¬(us ≠ [] ∧ e.1 ∉ us)) ∨ contributesUser us a rest := by
        simp only [contributesUser]
        exact List.exists_mem_cons_iff _ _ _
      have hB : (e.1 = a ∧ ¬(us ≠ [] ∧ e.1 ∉ us)) ↔
          (¬(us ≠ [] ∧ e.1 ∉ us) ∧ e.1 = a) := and_comm
      simp only [List.foldl_cons]
      rw [ih, mergeUserEntry_isSome, hcons, hB, or_assoc]

theorem foldl_mergeUserEntry_projSome (us : List String) (a pid : String)
    (m : List (String × UserStats)) :
    ∀ acc, (projView (m.foldl (mergeUserEntry us) acc) a pid).isSome = true ↔
      ((projView acc a pid).isSome = true ∨ contributesProj us a pid m) := by
  induction m with
  | nil =>
      intro acc
      simp [contributesProj]
  | cons e rest ih =>
      intro acc
      have hcons : contributesProj us a pid (e :: rest) ↔
          (e.1 = a ∧ ¬(us ≠ [] ∧ e.1 ∉ us) ∧ ∃ pe ∈ e.2.Projects, pe.1 = pid) ∨
            contributesProj us a pid rest := by
        simp only [contributesProj]
        exact List.exists_mem_cons_iff _ _ _
      have hB : (e.1 = a ∧ ¬(us ≠ [] ∧ e.1 ∉ us) ∧
            ∃ pe ∈ e.2.Projects, pe.1 = pid) ↔
          (¬(us ≠ [] ∧ e.1 ∉ us) ∧ e.1 = a ∧
            ∃ pe ∈ e.2.Projects, pe.1 = pid) := by
        constructor
        · rintro ⟨h1, h2, h3⟩
          exact ⟨h2, h1, h3⟩
        · rintro ⟨h1, h2, h3⟩
          exact ⟨h2, h1, h3⟩
      simp only [List.foldl_cons]
      rw [ih, mergeUserEntry_projSome, hcons, hB, or_assoc]

theorem MergeProjectStats_topViewD (us : List String) (a : String)
    (l : List (List (String × UserStats))) :
    topViewD (MergeProjectStats l us) a =
      (l.map fun m => (m.map (entryTop us a)).sum).sum := by
  have hgen : ∀ acc, topViewD
      (l.foldl (fun acc m => m.foldl (mergeUserEntry us) acc) acc) a =
      topViewD acc a + (l.map fun m => (m.map (entryTop us a)).sum).sum := by
    induction l with
    | nil =>
        intro acc
        simp
    | cons m rest ih =>
        intro acc
        simp only [List.foldl_cons, List.map_cons, List.sum_cons]
        rw [ih, foldl_mergeUserEntry_top, add_assoc]
  have h0 : topViewD [] a = 0 := rfl
  rw [MergeProjectStats, hgen, h0, zero_add]

theorem MergeProjectStats_projViewD (us : List String) (a pid : String)
    (l : List (List (String × UserStats))) :
    projViewD (MergeProjectStats l us) a pid =
      (l.map fun m => (m.map (entryProj us a pid)).sum).sum := by
  have hgen : ∀ acc, projViewD
      (l.foldl (fun acc m => m.foldl (mergeUserEntry us) acc) acc) a pid =
      projViewD acc a pid +
        (l.map fun m => (m.map (entryProj us a pid)).sum).sum := by
    induction l with
    | nil =>
        intro acc
        simp
    | cons m rest ih =>
        intro acc
        simp only [List.foldl_cons, List.map_cons, List.sum_cons]
        rw [ih, foldl_mergeUserEntry_proj, add_assoc]
  have h0 : projViewD [] a pid = 0 := rfl
  rw [MergeProjectStats, hgen, h0, zero_add]

theorem MergeProjectStats_isSome (us : List String) (a : String)
    (l : List (List (String × UserStats))) :
    (lookupKey (MergeProjectStats l us) a).isSome = true ↔
      ∃ m ∈ l, contributesUser us a m := by
  have hgen : ∀ acc, (lookupKey
      (l.foldl (fun acc m => m.foldl (mergeUserEntry us) acc) acc) a).isSome
        = true ↔
      ((lookupKey acc a).isSome = true ∨ ∃ m ∈ l, contributesUser us a m) := by
    induction l with
    | nil =>
        intro acc
        simp
    | cons m rest ih =>
        intro acc
        simp only [List.foldl_cons]
        rw [ih, foldl_mergeUserEntry_isSome,
          List.exists_mem_cons_iff (contributesUser us a) m rest, or_assoc]
  rw [MergeProjectStats, hgen]
  simp [lookupKey]

theorem MergeProjectStats_projSome (us : List String) (a pid : String)
    (l : List (List (String × UserStats))) :
    (projView (MergeProjectStats l us) a pid).isSome = true ↔
      ∃ m ∈ l, contributesProj us a pid m := by
  have hgen : ∀ acc, (projView
      (l.foldl (fun acc m => m.foldl (mergeUserEntry us) acc) acc) a
        pid).isSome = true ↔
      ((projView acc a pid).isSome = true ∨
        ∃ m ∈ l, contributesProj us a pid m) := by
    induction l with
    | nil =>
        intro acc
        simp
    | cons m rest ih =>
        intro acc
        simp only [List.foldl_cons]
        rw [ih, foldl_mergeUserEntry_projSome,
          List.exists_mem_cons_iff (contributesProj us a pid) m rest, or_assoc]
  rw [MergeProjectStats, hgen]
  simp [projView, lookupKey]

theorem userTopView_eq_ite (m : List (String × UserStats)) (a : String) :
    userTopView m a =
      if (lookupKey m a).isSome = true then some (topViewD m a) else none := by
  cases hl : lookupKey m a with
  | none => simp [userTopView, hl]
  | some u => simp [userTopView, topViewD, hl]

theorem projView_eq_ite (m : List (String × UserStats)) (a pid : String) :
    projView m a pid =
      if (projView m a pid).isSome = true then some (projViewD m a pid)
      else none := by
  cases hl : lookupKey m a with
  | none => simp [projView, hl]
  | some u =>
      cases hp : lookupKey u.Projects pid with
      | none => simp [projView, hl, hp]
      | some p => simp [projView, projViewD, projTripleD, hl, hp]

/-- C7: `MergeProjectStats` is commutative and associative over the
list of per-project result maps — for every permutation of the list
(same allow-list) the merged result is identical: every author's
top-level `(Additions, Deletions, Changes, Total)` view and every
`(author, project)` cell agree, including presence/absence. -/
theorem C7_merge_is_permutation_invariant
    (l1 l2 : List (List (String × UserStats))) (us : List String)
    (h : l1.Perm l2) (a pid : String) :
    userTopView (MergeProjectStats l1 us) a =
      userTopView (MergeProjectStats l2 us) a ∧
    projView (MergeProjectStats l1 us) a pid =
      projView (MergeProjectStats l2 us) a pid := by
  have hbool : ∀ (b c : Bool), (b = true ↔ c = true) → b = c := by decide
  have htop : topViewD (MergeProjectStats l1 us) a =
      topViewD (MergeProjectStats l2 us) a := by
    rw [MergeProjectStats_topViewD, MergeProjectStats_topViewD]
    exact (h.map _).sum_eq
  have hprojD : projViewD (MergeProjectStats l1 us) a pid =
      projViewD (MergeProjectStats l2 us) a pid := by
    rw [MergeProjectStats_projViewD, MergeProjectStats_projViewD]
    exact (h.map _).sum_eq
  have hexU : (∃ m ∈ l1, contributesUser us a m) ↔
      ∃ m ∈ l2, contributesUser us a m := by
    constructor
    · rintro ⟨m, hm, hc⟩
      exact ⟨m, h.mem_iff.mp hm, hc⟩
    · rintro ⟨m, hm, hc⟩
      exact ⟨m, h.mem_iff.mpr hm, hc⟩
  have hexP : (∃ m ∈ l1, contributesProj us a pid m) ↔
      ∃ m ∈ l2, contributesProj us a pid m := by
    constructor
    · rintro ⟨m, hm, hc⟩
      exact ⟨m, h.mem_iff.mp hm, hc⟩
    · rintro ⟨m, hm, hc⟩
      exact ⟨m, h.mem_iff.mpr hm, hc⟩
  have hsome : (lookupKey (MergeProjectStats l1 us) a).isSome =
      (lookupKey (MergeProjectStats l2 us) a).isSome :=
    hbool _ _ (((MergeProjectStats_isSome us a l1).trans hexU).trans
      (MergeProjectStats_isSome us a l2).symm)
  have hpsome : (projView (MergeProjectStats l1 us) a pid).isSome =
      (projView (MergeProjectStats l2 us) a pid).isSome :=
    hbool _ _ (((MergeProjectStats_projSome us a pid l1).trans hexP).trans
      (MergeProjectStats_projSome us a pid l2).symm)
  constructor
  · rw [userTopView_eq_ite (MergeProjectStats l1 us) a, hsome, htop]
    exact (userTopView_eq_ite (MergeProjectStats l2 us) a).symm
  · rw [projView_eq_ite (MergeProjectStats l1 us) a pid, hpsome, hprojD]
    exact (projView_eq_ite (MergeProjectStats l2 us) a pid).symm

/-- Per-project result maps used by the C7 witness. -/
def mapA : List (String × UserStats) :=
  [("alice", ⟨1, 0, 1, 1, [("1", ⟨1, 0, 1⟩)]⟩)]

/-- Second per-project result map of the C7 witness. -/
def mapB : List (String × UserStats) :=
  [("bob", ⟨2, 1, 3, 3, [("2", ⟨2, 1, 3⟩)]⟩)]

/-- Third per-project result map of the C7 witness; alice again, in a
different project. -/
def mapC : List (String × UserStats) :=
  [("alice", ⟨4, 2, 6, 6, [("3", ⟨4, 2, 6⟩)]⟩)]

/-- C7 witness: merging `[A, B, C]` equals merging `[C, A, B]` at a
concrete author and project cell. -/
theorem C7_witness :
    userTopView (MergeProjectStats [mapA, mapB, mapC] []) "alice" =
      userTopView (MergeProjectStats [mapC, mapA, mapB] []) "alice" ∧
    projView (MergeProjectStats [mapA, mapB, mapC] []) "alice" "1" =
      projView (MergeProjectStats [mapC, mapA, mapB] []) "alice" "1" :=
  C7_merge_is_permutation_invariant [mapA, mapB, mapC] [mapC, mapA, mapB] []
    ((List.Perm.cons mapA (List.Perm.swap mapC mapB [])).trans
      (List.Perm.swap mapC mapA [mapB]))
    "alice" "1"
